import Mathlib

set_option maxRecDepth 8000

/-!
Verification of the tiered primality engine in pyprimetest.py.

The Python source is embedded shallowly:

* machine integers are Int/Nat (Python ints are arbitrary precision, so no
  wrap-around is modelled);
* math.isqrt and the sieve bound int(n**0.5) are modelled by the executable
  integer square root isqrt below.  For every n < 2^52 the float expression
  int(n**0.5) equals isqrt n or isqrt n + 1, and the possible extra sieve
  candidate x = isqrt n + 1 marks nothing (its first multiple x*x exceeds n),
  so the sieve table produced is identical;
* random.randint draws are passed in explicitly: each probabilistic test takes
  the list of realized witnesses, and the dispatcher takes a map g from the
  tested value to the pair (Fermat draws, Miller-Rabin draws) consumed by the
  call on that value;
* the two genuinely floating-point sub-expressions inside aks_test, namely the
  perfect-power detector (n ** (1/b) compared with its rounding) and the order
  threshold math.log2(n) ** 2, are abstracted into parameters pp : Nat → Bool
  and thr : Nat → Nat.  Since the computed order is an integer, the Python
  comparison order > log2(n)**2 is equivalent to order > T for a suitable
  integer T, so every concrete Python run is an instance of the model;
* aks_test recursively calls is_prime inside its prime scan, and the scan is an
  unbounded while-loop, so the mutual recursion is indexed by an explicit fuel
  parameter; fuel 0 returns none, and adequacy of fuel is proved where needed;
* a raised Python exception is modelled as the value none.  In particular the
  residue check of aks_test executes range(1, math.isqrt(r) * math.log2(n));
  the bound is a Python float (int times float), and range raises TypeError on
  a float bound whenever that line is reached, hence that program point is
  embedded as none.
-/

/-- Executable integer square root: isqrtAux n fuel acc advances acc while
(acc+1)^2 ≤ n, at most fuel times.  With fuel = n this computes the exact
integer square root of n (the recursion stops after isqrt n steps). -/
def isqrtAux (n : Nat) : Nat → Nat → Nat
  | 0, acc => acc
  | fuel+1, acc => if (acc + 1) * (acc + 1) ≤ n then isqrtAux n fuel (acc + 1) else acc

/-- Exact integer square root, the model of math.isqrt(n) and of the sieve
bound int(n**0.5) (see the header comment). -/
def isqrt (n : Nat) : Nat := isqrtAux n n 0

/-- Embedding of is_small_prime (pyprimetest.py lines 17-24): trivial
rejection for n < 2, acceptance for 2 and 3, rejection of multiples of 2 and 3;
any other n (prime or not) passes the filter. -/
def is_small_prime (n : Int) : Bool :=
  if n < 2 then false
  else if n < 4 then true
  else if n % 2 = 0 ∨ n % 3 = 0 then false
  else true

/-- One marking pass of the sieve, the inner loop of eratosthenes_sieve
(line 52-53): for i in range(x**2, n+1, x): sieve[i] = False.  The table is a
function Nat → Bool; the marked indices are exactly the multiples of x in
[x*x, n]. -/
def sieveMark (n x : Nat) (s : Nat → Bool) : Nat → Bool :=
  fun i => if x * x ≤ i ∧ i ≤ n ∧ i % x = 0 then false else s i

/-- The outer loop of eratosthenes_sieve (lines 50-53) over the list of
candidates x: if sieve[x] is still true, mark the multiples of x. -/
def sieveLoop (n : Nat) : List Nat → (Nat → Bool) → (Nat → Bool)
  | [], s => s
  | x :: xs, s => sieveLoop n xs (if s x then sieveMark n x s else s)

/-- Embedding of eratosthenes_sieve (lines 48-54): table of n+1 booleans all
initialized True (indices 0 and 1 included), candidates x from 2 to
int(n**0.5), result sieve[n]. -/
def eratosthenes_sieve (n : Nat) : Bool :=
  sieveLoop n (List.range' 2 (isqrt n + 1 - 2)) (fun _ => true) n

/-- Embedding of sqrt_method (lines 57-61): trial division by every i from 2
to math.isqrt(n); the early return False is the failure of List.all. -/
def sqrt_method (n : Nat) : Bool :=
  (List.range' 2 (isqrt n + 1 - 2)).all (fun i => n % i != 0)

/-- Embedding of fermat_test (lines 64-69) applied to the realized list of
random witnesses: each round draws a and requires pow(a, n-1, n) == 1, the
early return False being the failure of List.all.  The round count k is the
length of the list. -/
def fermat_test (n : Nat) (as : List Nat) : Bool :=
  as.all (fun a => a ^ (n - 1) % n == 1)

/-- The while-loop of miller_rabin_test (lines 73-77) extracting d and r from
n-1, run with explicit fuel (fuel = the initial d is always enough since d at
least halves each step).  The source loop has no d ≠ 0 test and diverges on
d = 0; that guard is added for totality and is never reached from the tests,
which only call it on d = n - 1 with n ≥ 3. -/
def twoFactorAux : Nat → Nat → Nat → Nat × Nat
  | 0, r, d => (r, d)
  | fuel+1, r, d => if d % 2 = 0 ∧ d ≠ 0 then twoFactorAux fuel (r + 1) (d / 2) else (r, d)

/-- Decomposition m = d * 2^r with d odd (for m ≠ 0), as computed by
miller_rabin_test on m = n - 1; returns (r, d). -/
def twoFactor (m : Nat) : Nat × Nat := twoFactorAux m 0 m

/-- The inner squaring loop of one Miller-Rabin round (lines 84-89): square x
up to fuel = r - 1 times; break (round passes, true) as soon as a squaring
yields n - 1; if the loop exhausts without that, the for-else returns
Composite (false). -/
def mrSquare (n : Nat) : Nat → Nat → Bool
  | _, 0 => false
  | x, fuel+1 => if x * x % n = n - 1 then true else mrSquare n (x * x % n) fuel

/-- One Miller-Rabin round (lines 80-89) for witness a: x = pow(a, d, n); the
round passes at once if x is 1 or n - 1, otherwise the squaring loop runs
r - 1 times. -/
def mrRound (n d r a : Nat) : Bool :=
  if a ^ d % n = 1 ∨ a ^ d % n = n - 1 then true
  else mrSquare n (a ^ d % n) (r - 1)

/-- Embedding of miller_rabin_test (lines 72-90) applied to the realized list
of random witnesses; the early return False inside the round loop is the
failure of List.all. -/
def miller_rabin_test (n : Nat) (as : List Nat) : Bool :=
  as.all (fun a => mrRound n (twoFactor (n - 1)).2 (twoFactor (n - 1)).1 a)

/-- The order proxy of aks_test (line 111):
max([pow(n, k, next_prime) for k in range(1, math.isqrt(next_prime) + 1)]).
foldl max 0 equals the Python max on the nonempty lists that occur (the
candidate is at least 3, so isqrt of it is at least 1). -/
def maxOrd (n r : Nat) : Nat :=
  ((List.range' 1 (isqrt r)).map (fun k => n ^ k % r)).foldl max 0

/-- The order-search loop of aks_test (lines 106-114), flattened: the source
increments next_prime, skips values failing is_prime, computes the order proxy
at each prime, and stops at the first prime whose order exceeds the threshold;
equivalently, candidates 3, 4, 5, ... are scanned in turn, non-primes are
skipped, and the first prime candidate with maxOrd greater than T is returned.
isp is the primality test used by the scan (the recursive is_prime call); a
none from it (exception or exhausted fuel) propagates, and fuel bounds the
number of scanned candidates (the source loop is unbounded). -/
def scanAux (isp : Nat → Option Bool) (n T : Nat) : Nat → Nat → Option Nat
  | 0, _ => none
  | fuel+1, cand =>
    match isp cand with
    | none => none
    | some false => scanAux isp n T fuel (cand + 1)
    | some true =>
      if T < maxOrd n cand then some cand
      else scanAux isp n T fuel (cand + 1)

/-- Body of aks_test (lines 93-129) with the recursive is_prime call isp, the
perfect-power detector pp (the float loop of lines 99-102, see header) and the
integer order threshold T (the float math.log2(n) ** 2 of line 105, see
header) abstracted.  Steps: small-case re-check; perfect-power rejection;
order search; gcd screen over a in range(2, min(r, n)); early acceptance when
n ≤ r; then the residue check, whose range bound isqrt(r) * log2(n) is a
Python float, so range raises TypeError whenever that line runs - modelled as
none. -/
def aksBody (pp : Nat → Bool) (isp : Nat → Option Bool) (T fuel n : Nat) : Option Bool :=
  if ! is_small_prime (n : Int) then some false
  else if pp n then some false
  else
    match scanAux isp n T fuel 3 with
    | none => none
    | some r =>
      if (List.range' 2 (min r n - 2)).any (fun a => decide (1 < Nat.gcd a n)) then some false
      else if n ≤ r then some true
      else none

/-- Embedding of is_prime (lines 27-45), fuel-indexed because aks_test calls
is_prime back inside its order search: small-case filter, then dispatch on
magnitude to the sieve (n < 10000), trial division (n < 10^8), Fermat then
Miller-Rabin (n < 10^16, both must pass) or aks_test.  g assigns to each
tested value the random draws consumed by the Fermat and Miller-Rabin calls on
it.  Fuel 0 is none; every recursive call strictly decreases fuel. -/
def is_primeF (pp : Nat → Bool) (thr : Nat → Nat) (g : Nat → List Nat × List Nat) :
    Nat → Int → Option Bool
  | 0, _ => none
  | fuel+1, n =>
    if ! is_small_prime n then some false
    else if n < 10000 then some (eratosthenes_sieve n.toNat)
    else if n < 100000000 then some (sqrt_method n.toNat)
    else if n < 10000000000000000 then
      if ! fermat_test n.toNat (g n.toNat).1 then some false
      else if ! miller_rabin_test n.toNat (g n.toNat).2 then some false
      else some true
    else
      match aksBody pp (fun c => is_primeF pp thr g fuel (c : Int)) (thr n.toNat) fuel n.toNat with
      | none => none
      | some b => if ! b then some false else some true

/-- Embedding of aks_test (lines 93-129) at a given fuel: the body with the
recursive is_prime call instantiated, exactly as the aks branch of is_primeF
invokes it. -/
def aks_testF (pp : Nat → Bool) (thr : Nat → Nat) (g : Nat → List Nat × List Nat)
    (fuel n : Nat) : Option Bool :=
  aksBody pp (fun c => is_primeF pp thr g fuel (c : Int)) (thr n) fuel n

/-- Embedding of parallel_is_prime (lines 132-140): is_prime is applied to
every i in range(2, n) and the verdicts are aggregated with all(results).  The
worker count num_processes only distributes the calls and does not affect the
value, so it is not a parameter of the model; task.get() re-raises a worker
exception, modelled by mapM over Option. -/
def parallel_is_prime (pp : Nat → Bool) (thr : Nat → Nat) (g : Nat → List Nat × List Nat)
    (fuel : Nat) (n : Int) : Option Bool :=
  match (List.range' 2 (n.toNat - 2)).mapM (fun i => is_primeF pp thr g fuel (i : Int)) with
  | none => none
  | some results => some (results.all id)

/-- A perfect-power detector that never fires, used to instantiate the pp
parameter on concrete runs where no candidate root is integral. -/
def ppNone : Nat → Bool := fun _ => false

/-- Constant order threshold, used to instantiate the thr parameter on
concrete runs. -/
def thrConst (t : Nat) : Nat → Nat := fun _ => t

/-- A draw assignment with empty witness lists (zero probabilistic rounds),
used to instantiate the g parameter on runs that never reach the
probabilistic tier. -/
def noDraws : Nat → List Nat × List Nat := fun _ => ([], [])

/-- The sieve invariant: index i has been cleared by some already-processed
prime p ≤ bound, i.e. p divides i and the marking at p (which starts at p*p
and stops at n) reaches i. -/
def markedBelow (n bound i : Nat) : Prop :=
  ∃ p, Nat.Prime p ∧ p ≤ bound ∧ p * p ≤ i ∧ i ≤ n ∧ i % p = 0

/-- The squaring chain of one Miller-Rabin round: j successive steps of
x ↦ x * x % n, the values inspected by mrSquare. -/
def mrIter (n : Nat) : Nat → Nat → Nat
  | x, 0 => x
  | x, j+1 => mrIter n (x * x % n) j

theorem isqrtAux_le_self (n : Nat) : ∀ fuel acc, acc ≤ isqrtAux n fuel acc := by
  intro fuel
  induction fuel with
  | zero => intro acc; simp [isqrtAux]
  | succ f ih =>
    intro acc
    simp only [isqrtAux]
    split
    · exact le_trans (Nat.le_succ acc) (ih (acc + 1))
    · exact le_refl acc

theorem isqrtAux_sq_le (n : Nat) :
    ∀ fuel acc, acc * acc ≤ n → isqrtAux n fuel acc * isqrtAux n fuel acc ≤ n := by
  intro fuel
  induction fuel with
  | zero => intro acc h; simpa [isqrtAux] using h
  | succ f ih =>
    intro acc h
    simp only [isqrtAux]
    split
    · exact ih (acc + 1) (by assumption)
    · exact h

theorem le_isqrtAux (n : Nat) :
    ∀ fuel acc m, acc ≤ m → m ≤ acc + fuel → m * m ≤ n → m ≤ isqrtAux n fuel acc := by
  intro fuel
  induction fuel with
  | zero => intro acc m h1 h2 _; simp only [isqrtAux]; omega
  | succ f ih =>
    intro acc m h1 h2 h3
    simp only [isqrtAux]
    split
    · rcases Nat.lt_or_ge acc m with h' | h'
      · exact ih (acc + 1) m (by omega) (by omega) h3
      · have hm : m = acc := by omega
        subst hm
        exact le_trans (Nat.le_succ m) (isqrtAux_le_self n f (m + 1))
    · rename_i hc
      by_contra hlt
      exact hc (le_trans (Nat.mul_le_mul (by omega) (by omega)) h3)

/-- Characterization of the integer square root: m ≤ isqrt n iff m * m ≤ n.
This is the defining property of math.isqrt. -/
theorem le_isqrt {m n : Nat} : m ≤ isqrt n ↔ m * m ≤ n := by
  constructor
  · intro h
    exact le_trans (Nat.mul_le_mul h h) (isqrtAux_sq_le n n 0 (by omega))
  · intro h
    exact le_isqrtAux n n 0 m (Nat.zero_le m) (by simpa using le_trans (Nat.le_mul_self m) h) h

theorem isqrt_sq_le (n : Nat) : isqrt n * isqrt n ≤ n := isqrtAux_sq_le n n 0 (by omega)

theorem isqrt_le_self (n : Nat) : isqrt n ≤ n :=
  le_trans (Nat.le_mul_self _) (isqrt_sq_le n)

theorem one_le_isqrt {n : Nat} (h : 1 ≤ n) : 1 ≤ isqrt n := le_isqrt.mpr (by omega)

/-- A Bool equals the decision of any proposition it is equivalent to. -/
theorem bool_eq_decide {P : Prop} [Decidable P] {b : Bool} (h : b = true ↔ P) : b = decide P := by
  by_cases hP : P
  · rw [h.mpr hP, decide_eq_true hP]
  · have hb : b = false := by
      rcases Bool.eq_false_or_eq_true b with hb | hb
      · exact absurd (h.mp hb) hP
      · exact hb
    rw [hb, decide_eq_false hP]

theorem is_small_prime_false_cases {n : Int} (h : is_small_prime n = false) :
    n < 2 ∨ (4 ≤ n ∧ (n % 2 = 0 ∨ n % 3 = 0)) := by
  unfold is_small_prime at h
  split_ifs at h with h1 h2 h3
  · exact Or.inl h1
  · exact Or.inr ⟨by omega, h3⟩

theorem is_small_prime_true_cases {n : Int} (h : is_small_prime n = true) :
    2 ≤ n ∧ (n < 4 ∨ (4 ≤ n ∧ ¬n % 2 = 0 ∧ ¬n % 3 = 0)) := by
  unfold is_small_prime at h
  split_ifs at h with h1 h2 h3
  · exact ⟨by omega, Or.inl h2⟩
  · exact ⟨by omega, Or.inr ⟨by omega, by tauto⟩⟩

theorem is_small_prime_false_not_prime {n : Int} (h : is_small_prime n = false) :
    ¬(0 ≤ n ∧ Nat.Prime n.toNat) := by
  rintro ⟨hn0, hp⟩
  have h2le := hp.two_le
  rcases is_small_prime_false_cases h with h1 | ⟨h4, h23⟩
  · omega
  · rcases h23 with h2 | h3
    · have hdvd : 2 ∣ n.toNat := Nat.dvd_of_mod_eq_zero (by omega)
      rcases (Nat.Prime.eq_one_or_self_of_dvd hp 2 hdvd) with h' | h' <;> omega
    · have hdvd : 3 ∣ n.toNat := Nat.dvd_of_mod_eq_zero (by omega)
      rcases (Nat.Prime.eq_one_or_self_of_dvd hp 3 hdvd) with h' | h' <;> omega

theorem sieveLoop_append (n : Nat) (l1 l2 : List Nat) (s : Nat → Bool) :
    sieveLoop n (l1 ++ l2) s = sieveLoop n l2 (sieveLoop n l1 s) := by
  induction l1 generalizing s with
  | nil => rfl
  | cons x xs ih => simp only [List.cons_append, sieveLoop]; exact ih _

theorem markedBelow_one (n i : Nat) : ¬ markedBelow n 1 i := by
  rintro ⟨p, hp, hple, -, -, -⟩
  exact absurd hp.two_le (by omega)

theorem markedBelow_succ (n b i : Nat) :
    markedBelow n (b + 1) i ↔
      markedBelow n b i ∨
        (Nat.Prime (b + 1) ∧ (b + 1) * (b + 1) ≤ i ∧ i ≤ n ∧ i % (b + 1) = 0) := by
  constructor
  · rintro ⟨p, hp, hple, hsq, hin, hmod⟩
    rcases Nat.lt_or_ge p (b + 1) with h' | h'
    · exact Or.inl ⟨p, hp, by omega, hsq, hin, hmod⟩
    · have hpe : p = b + 1 := by omega
      subst hpe
      exact Or.inr ⟨hp, hsq, hin, hmod⟩
  · rintro (⟨p, hp, hple, hsq, hin, hmod⟩ | ⟨hp, hsq, hin, hmod⟩)
    · exact ⟨p, hp, by omega, hsq, hin, hmod⟩
    · exact ⟨b + 1, hp, le_refl _, hsq, hin, hmod⟩

theorem minFac_lt_of_composite {x : Nat} (h2 : 2 ≤ x) (hx : ¬ Nat.Prime x) : x.minFac < x := by
  have hp := Nat.minFac_prime (show x ≠ 1 by omega)
  have hdvd := Nat.minFac_dvd x
  rcases Nat.lt_or_ge x.minFac x with h' | h'
  · exact h'
  · exfalso
    have hle : x.minFac ≤ x := Nat.le_of_dvd (by omega) hdvd
    have hfx : x.minFac = x := by omega
    exact hx (hfx ▸ hp)

theorem markedBelow_self_of_composite {n x b : Nat} (h2 : 2 ≤ x) (hx : ¬ Nat.Prime x)
    (hxn : x ≤ n) (hb : x.minFac ≤ b) : markedBelow n b x := by
  have hp := Nat.minFac_prime (show x ≠ 1 by omega)
  have hsq : x.minFac * x.minFac ≤ x := by
    have := Nat.minFac_sq_le_self (show 0 < x by omega) hx
    simpa [pow_two] using this
  exact ⟨x.minFac, hp, hb, hsq, hxn, Nat.mod_eq_zero_of_dvd (Nat.minFac_dvd x)⟩

theorem not_markedBelow_of_prime {n b x : Nat} (hx : Nat.Prime x) (hb : b < x) :
    ¬ markedBelow n b x := by
  rintro ⟨p, hp, hple, hsq, hin, hmod⟩
  have hdvd : p ∣ x := Nat.dvd_of_mod_eq_zero hmod
  rcases hx.eq_one_or_self_of_dvd p hdvd with h' | h'
  · exact absurd hp.two_le (by omega)
  · subst h'
    omega

theorem sieveLoop_invariant (n : Nat) :
    ∀ k, 2 + k ≤ isqrt n + 1 →
      ∀ i, sieveLoop n (List.range' 2 k) (fun _ => true) i = true ↔ ¬ markedBelow n (k + 1) i := by
  intro k
  induction k with
  | zero =>
    intro _ i
    simp only [List.range'_zero, sieveLoop]
    simpa using markedBelow_one n i
  | succ k ih =>
    intro hk i
    have hx2 : k + 2 ≤ isqrt n := by omega
    have hxsq : (k + 2) * (k + 2) ≤ n := le_isqrt.mp hx2
    have hxn : k + 2 ≤ n := le_trans (Nat.le_mul_self _) hxsq
    rw [List.range'_1_concat, Nat.add_comm 2 k, sieveLoop_append]
    have iht := fun j => ih (by omega) j
    simp only [sieveLoop]
    by_cases hxp : Nat.Prime (k + 2)
    · have htx : sieveLoop n (List.range' 2 k) (fun _ => true) (k + 2) = true :=
        (iht (k + 2)).mpr (not_markedBelow_of_prime hxp (by omega))
      rw [if_pos htx]
      show sieveMark n (k + 2) _ i = true ↔ _
      unfold sieveMark
      rw [show k + 1 + 1 = (k + 1) + 1 from rfl, markedBelow_succ]
      by_cases hC : (k + 2) * (k + 2) ≤ i ∧ i ≤ n ∧ i % (k + 2) = 0
      · rw [if_pos hC]
        constructor
        · intro h
          exact absurd h (by simp)
        · intro h
          exact absurd (Or.inr ⟨by simpa using hxp, hC.1, hC.2.1, hC.2.2⟩) h
      · rw [if_neg hC, iht i]
        constructor
        · intro h
          rintro (h' | ⟨-, hc1, hc2, hc3⟩)
          · exact h h'
          · exact hC ⟨hc1, hc2, hc3⟩
        · intro h h'
          exact h (Or.inl h')
    · have hmk : markedBelow n (k + 1) (k + 2) :=
        markedBelow_self_of_composite (by omega) hxp hxn
          (by have := minFac_lt_of_composite (show 2 ≤ k + 2 by omega) hxp; omega)
      have htx : sieveLoop n (List.range' 2 k) (fun _ => true) (k + 2) = false := by
        rcases Bool.eq_false_or_eq_true (sieveLoop n (List.range' 2 k) (fun _ => true) (k + 2))
          with hb | hb
        · exact absurd hmk ((iht (k + 2)).mp hb)
        · exact hb
      rw [if_neg (by simp [htx])]
      rw [show k + 1 + 1 = (k + 1) + 1 from rfl, markedBelow_succ, iht i]
      constructor
      · intro h
        rintro (hm | ⟨hpp, -⟩)
        · exact h hm
        · exact hxp (by simpa using hpp)
      · intro h hm
        exact h (Or.inl hm)

theorem isqrt_lt_self {n : Nat} (h2 : 2 ≤ n) : isqrt n < n := by
  by_contra h
  have h1 : n ≤ isqrt n := by omega
  have hA := le_isqrt.mp h1
  have hB := Nat.mul_le_mul_right n h2
  omega

/-- Correctness of the sieve for every n at least 2: the returned entry is
true exactly when n is prime. -/
theorem eratosthenes_sieve_prime_iff {n : Nat} (h2 : 2 ≤ n) :
    eratosthenes_sieve n = true ↔ Nat.Prime n := by
  have h1 : 1 ≤ isqrt n := one_le_isqrt (by omega)
  unfold eratosthenes_sieve
  rw [sieveLoop_invariant n (isqrt n + 1 - 2) (by omega) n,
    show isqrt n + 1 - 2 + 1 = isqrt n from by omega]
  constructor
  · intro h
    by_contra hnp
    refine h (markedBelow_self_of_composite h2 hnp (le_refl n) ?_)
    refine le_isqrt.mpr ?_
    have := Nat.minFac_sq_le_self (show 0 < n by omega) hnp
    simpa [pow_two] using this
  · intro hp
    exact not_markedBelow_of_prime hp (isqrt_lt_self h2)

/-- Correctness of trial division for every n at least 2. -/
theorem sqrt_method_prime_iff {n : Nat} (h2 : 2 ≤ n) : sqrt_method n = true ↔ Nat.Prime n := by
  have h3 : 1 ≤ isqrt n := one_le_isqrt (by omega)
  unfold sqrt_method
  rw [List.all_eq_true]
  constructor
  · intro h
    by_contra hnp
    have hp := Nat.minFac_prime (show n ≠ 1 by omega)
    have hsq : n.minFac * n.minFac ≤ n := by
      have := Nat.minFac_sq_le_self (show 0 < n by omega) hnp
      simpa [pow_two] using this
    have hmem : n.minFac ∈ List.range' 2 (isqrt n + 1 - 2) := by
      rw [List.mem_range'_1]
      have h1 : n.minFac ≤ isqrt n := le_isqrt.mpr hsq
      exact ⟨hp.two_le, by omega⟩
    have hne := h _ hmem
    simp only [bne_iff_ne, ne_eq] at hne
    exact hne (Nat.mod_eq_zero_of_dvd (Nat.minFac_dvd n))
  · intro hp i hmem
    rw [List.mem_range'_1] at hmem
    simp only [bne_iff_ne, ne_eq]
    intro hmod
    have hdvd : i ∣ n := Nat.dvd_of_mod_eq_zero hmod
    rcases hp.eq_one_or_self_of_dvd i hdvd with h' | h'
    · omega
    · have := isqrt_lt_self h2
      omega

theorem is_primeF_small_false (pp : Nat → Bool) (thr : Nat → Nat) (g : Nat → List Nat × List Nat)
    (fuel : Nat) (n : Int) (hs : is_small_prime n = false) :
    is_primeF pp thr g (fuel + 1) n = some false := by
  simp [is_primeF, hs]

theorem is_primeF_sieve (pp : Nat → Bool) (thr : Nat → Nat) (g : Nat → List Nat × List Nat)
    (fuel : Nat) (n : Int) (hs : is_small_prime n = true) (h : n < 10000) :
    is_primeF pp thr g (fuel + 1) n = some (eratosthenes_sieve n.toNat) := by
  simp [is_primeF, hs, h]

theorem is_primeF_sqrt (pp : Nat → Bool) (thr : Nat → Nat) (g : Nat → List Nat × List Nat)
    (fuel : Nat) (n : Int) (hs : is_small_prime n = true) (h1 : 10000 ≤ n)
    (h2 : n < 100000000) :
    is_primeF pp thr g (fuel + 1) n = some (sqrt_method n.toNat) := by
  have hA : ¬ n < 10000 := by omega
  simp [is_primeF, hs, hA, h2]

theorem is_primeF_prob (pp : Nat → Bool) (thr : Nat → Nat) (g : Nat → List Nat × List Nat)
    (fuel : Nat) (n : Int) (hs : is_small_prime n = true) (h1 : 100000000 ≤ n)
    (h2 : n < 10000000000000000) :
    is_primeF pp thr g (fuel + 1) n =
      some (fermat_test n.toNat (g n.toNat).1 && miller_rabin_test n.toNat (g n.toNat).2) := by
  have hA : ¬ n < 10000 := by omega
  have hB : ¬ n < 100000000 := by omega
  rcases Bool.eq_false_or_eq_true (fermat_test n.toNat (g n.toNat).1) with hF | hF <;>
    rcases Bool.eq_false_or_eq_true (miller_rabin_test n.toNat (g n.toNat).2) with hM | hM <;>
    simp [is_primeF, hs, hA, hB, h2, hF, hM]

theorem is_primeF_aks (pp : Nat → Bool) (thr : Nat → Nat) (g : Nat → List Nat × List Nat)
    (fuel : Nat) (n : Int) (hs : is_small_prime n = true) (h1 : 10000000000000000 ≤ n) :
    is_primeF pp thr g (fuel + 1) n = aks_testF pp thr g fuel n.toNat := by
  have hA : ¬ n < 10000 := by omega
  have hB : ¬ n < 100000000 := by omega
  have hC : ¬ n < 10000000000000000 := by omega
  rcases haks : aksBody pp (fun c => is_primeF pp thr g fuel (c : Int)) (thr n.toNat) fuel n.toNat
    with - | b
  · simp [is_primeF, hs, hA, hB, hC, aks_testF, haks]
  · rcases Bool.eq_false_or_eq_true b with hb | hb <;> subst hb <;>
      simp [is_primeF, hs, hA, hB, hC, aks_testF, haks]

theorem is_primeF_eval_below_1e8 (pp : Nat → Bool) (thr : Nat → Nat)
    (g : Nat → List Nat × List Nat) (fuel : Nat) (n : Int) (h : n < 100000000) :
    is_primeF pp thr g (fuel + 1) n = some (decide (0 ≤ n ∧ Nat.Prime n.toNat)) := by
  by_cases hs : is_small_prime n = true
  · obtain ⟨h2n, -⟩ := is_small_prime_true_cases hs
    have h2t : 2 ≤ n.toNat := by omega
    have h0 : 0 ≤ n := by omega
    by_cases hlt : n < 10000
    · rw [is_primeF_sieve pp thr g fuel n hs hlt]
      congr 1
      refine bool_eq_decide ?_
      rw [eratosthenes_sieve_prime_iff h2t]
      exact ⟨fun hp => ⟨h0, hp⟩, fun hp => hp.2⟩
    · rw [is_primeF_sqrt pp thr g fuel n hs (by omega) h]
      congr 1
      refine bool_eq_decide ?_
      rw [sqrt_method_prime_iff h2t]
      exact ⟨fun hp => ⟨h0, hp⟩, fun hp => hp.2⟩
  · have hsf : is_small_prime n = false := by
      rcases Bool.eq_false_or_eq_true (is_small_prime n) with hb | hb
      · exact absurd hb hs
      · exact hb
    rw [is_primeF_small_false pp thr g fuel n hsf]
    congr 1
    exact (decide_eq_false (is_small_prime_false_not_prime hsf)).symm

/-- C1: for every integer n < 10^8, negative integers included, the dispatcher
is_prime answers true exactly on the primes (and in particular answers, rather
than failing, on the whole range): the tiers used below 10^8 (small-case
filter, sieve, trial division) are deterministic and exact.  The verdict does
not depend on the perfect-power oracle, the order threshold, the random draws
or the fuel, none of which are consulted below 10^16. -/
theorem is_prime_correct_below_1e8 (pp : Nat → Bool) (thr : Nat → Nat)
    (g : Nat → List Nat × List Nat) (fuel : Nat) (n : Int) (h : n < 100000000) :
    (is_primeF pp thr g (fuel + 1) n = some true ↔ 0 ≤ n ∧ Nat.Prime n.toNat) ∧
    (is_primeF pp thr g (fuel + 1) n = some false ↔ ¬(0 ≤ n ∧ Nat.Prime n.toNat)) := by
  rw [is_primeF_eval_below_1e8 pp thr g fuel n h]
  by_cases hP : 0 ≤ n ∧ Nat.Prime n.toNat
  · rw [decide_eq_true hP]
    simp [hP]
  · rw [decide_eq_false hP]
    simp [hP]

/-- Witness for C1 at the concrete inputs 17 (prime) and 21 (composite). -/
theorem is_prime_correct_below_1e8_witness :
    (17 : Int) < 100000000 ∧ (21 : Int) < 100000000 ∧
    is_primeF ppNone (thrConst 0) noDraws 1 17 = some true ∧
    is_primeF ppNone (thrConst 0) noDraws 1 21 = some false := by
  refine ⟨by decide, by decide, ?_, ?_⟩
  · exact ((is_prime_correct_below_1e8 ppNone (thrConst 0) noDraws 0 17 (by decide)).1).mpr
      ⟨by decide, (by norm_num : Nat.Prime 17)⟩
  · exact ((is_prime_correct_below_1e8 ppNone (thrConst 0) noDraws 0 21 (by decide)).2).mpr
      (fun hc => (by norm_num : ¬ Nat.Prime 21) hc.2)

/-- C2 counterexample: the claim "eratosthenes_sieve n is true iff n is prime
for every n ≥ 0" fails at n = 0 (and n = 1): the table entries 0 and 1 are
initialized True and never cleared, so the sieve answers true although 0 and
1 are not prime. -/
theorem eratosthenes_sieve_zero_one_false_positive :
    eratosthenes_sieve 0 = true ∧ eratosthenes_sieve 1 = true ∧
    ¬ Nat.Prime 0 ∧ ¬ Nat.Prime 1 := by
  refine ⟨rfl, rfl, ?_, ?_⟩ <;> norm_num

/-- C2 amended: the sieve is exact for every n ≥ 2 - at any size, the 10,000
threshold being only a performance tier boundary; the only failures of the
stated property are the table entries 0 and 1. -/
theorem eratosthenes_sieve_exact_from_two (n : Nat) (h2 : 2 ≤ n) :
    eratosthenes_sieve n = true ↔ Nat.Prime n :=
  eratosthenes_sieve_prime_iff h2

/-- Witness for the amended C2 at the concrete input 9973. -/
theorem eratosthenes_sieve_exact_from_two_witness :
    2 ≤ 9973 ∧ (eratosthenes_sieve 9973 = true ↔ Nat.Prime 9973) :=
  ⟨by decide, eratosthenes_sieve_exact_from_two 9973 (by decide)⟩

/-- C7: the two exact tiers agree on every n ≥ 2: the sieve and trial division
compute the same verdict wherever both are invocable. -/
theorem sieve_sqrt_method_agree (n : Nat) (h2 : 2 ≤ n) :
    eratosthenes_sieve n = sqrt_method n := by
  rw [bool_eq_decide (eratosthenes_sieve_prime_iff h2),
    bool_eq_decide (sqrt_method_prime_iff h2)]

/-- Witness for C7 at the tier-boundary inputs 9999 and 10001. -/
theorem sieve_sqrt_method_agree_witness :
    (2 ≤ 9999 ∧ eratosthenes_sieve 9999 = sqrt_method 9999) ∧
    (2 ≤ 10001 ∧ eratosthenes_sieve 10001 = sqrt_method 10001) :=
  ⟨⟨by decide, sieve_sqrt_method_agree 9999 (by decide)⟩,
    ⟨by decide, sieve_sqrt_method_agree 10001 (by decide)⟩⟩

/-- C6: dispatch is by magnitude tier, each tier exclusive of the others: for
every n passing the small-case filter, n < 10,000 goes to the sieve,
10,000 ≤ n < 10^8 to trial division, 10^8 ≤ n < 10^16 to Fermat followed by
Miller-Rabin - the verdict being the conjunction of the two, a false from
either being definitive - and n ≥ 10^16 to aks_test. -/
theorem is_prime_dispatch_tiers (pp : Nat → Bool) (thr : Nat → Nat)
    (g : Nat → List Nat × List Nat) (fuel : Nat) (n : Int)
    (hs : is_small_prime n = true) :
    (n < 10000 → is_primeF pp thr g (fuel + 1) n = some (eratosthenes_sieve n.toNat)) ∧
    (10000 ≤ n → n < 100000000 →
      is_primeF pp thr g (fuel + 1) n = some (sqrt_method n.toNat)) ∧
    (100000000 ≤ n → n < 10000000000000000 →
      is_primeF pp thr g (fuel + 1) n =
        some (fermat_test n.toNat (g n.toNat).1 && miller_rabin_test n.toNat (g n.toNat).2) ∧
      (fermat_test n.toNat (g n.toNat).1 = false →
        is_primeF pp thr g (fuel + 1) n = some false) ∧
      (miller_rabin_test n.toNat (g n.toNat).2 = false →
        is_primeF pp thr g (fuel + 1) n = some false)) ∧
    (10000000000000000 ≤ n →
      is_primeF pp thr g (fuel + 1) n = aks_testF pp thr g fuel n.toNat) := by
  refine ⟨fun h => is_primeF_sieve pp thr g fuel n hs h,
    fun h1 h2 => is_primeF_sqrt pp thr g fuel n hs h1 h2,
    fun h1 h2 => ⟨is_primeF_prob pp thr g fuel n hs h1 h2, ?_, ?_⟩,
    fun h1 => is_primeF_aks pp thr g fuel n hs h1⟩
  · intro hF
    rw [is_primeF_prob pp thr g fuel n hs h1 h2, hF]
    simp
  · intro hM
    rw [is_primeF_prob pp thr g fuel n hs h1 h2, hM]
    simp

/-- Witness for C6 at the concrete input 17 (sieve tier). -/
theorem is_prime_dispatch_tiers_witness :
    is_small_prime 17 = true ∧ (17 : Int) < 10000 ∧
    is_primeF ppNone (thrConst 0) noDraws 1 17 = some (eratosthenes_sieve (17 : Int).toNat) :=
  ⟨by decide, by decide,
    (is_prime_dispatch_tiers ppNone (thrConst 0) noDraws 0 17 (by decide)).1 (by decide)⟩

theorem twoFactorAux_spec :
    ∀ fuel r d, d ≠ 0 → d ≤ fuel →
      ∃ s m, twoFactorAux fuel r d = (r + s, m) ∧ m % 2 = 1 ∧ m * 2 ^ s = d := by
  intro fuel
  induction fuel with
  | zero => intro r d h0 hle; exact absurd (Nat.le_zero.mp hle) h0
  | succ f ih =>
    intro r d h0 hle
    by_cases he : d % 2 = 0
    · have hstep : twoFactorAux (f + 1) r d = twoFactorAux f (r + 1) (d / 2) := by
        simp [twoFactorAux, he, h0]
      obtain ⟨s, m, heq, hodd, hpow⟩ := ih (r + 1) (d / 2) (by omega) (by omega)
      refine ⟨s + 1, m, ?_, hodd, ?_⟩
      · rw [hstep, heq]
        congr 1
        omega
      · calc m * 2 ^ (s + 1) = m * 2 ^ s * 2 := by ring
        _ = d / 2 * 2 := by rw [hpow]
        _ = d := by omega
    · refine ⟨0, d, ?_, by omega, by ring⟩
      have hstep : twoFactorAux (f + 1) r d = (r, d) := by
        simp [twoFactorAux, he]
      rw [hstep]
      simp

theorem twoFactor_spec {m : Nat} (hm : m ≠ 0) :
    (twoFactor m).2 % 2 = 1 ∧ (twoFactor m).2 * 2 ^ (twoFactor m).1 = m := by
  obtain ⟨s, d, heq, hodd, hpow⟩ := twoFactorAux_spec m 0 m hm (le_refl m)
  unfold twoFactor
  rw [heq]
  simpa using ⟨hodd, hpow⟩

theorem twoFactor_fst_pos {m : Nat} (hm : m ≠ 0) (he : m % 2 = 0) : 1 ≤ (twoFactor m).1 := by
  obtain ⟨hodd, hpow⟩ := twoFactor_spec hm
  by_contra h
  have h0 : (twoFactor m).1 = 0 := by omega
  rw [h0, pow_zero, mul_one] at hpow
  omega

/-- C10: whenever the dispatcher reaches the probabilistic tier the candidate
n is at least 10^8 and odd (it passed the small-case filter), so the witness
range [2, n-2] drawn from by both tests is nonempty, and the Miller-Rabin
decomposition n - 1 = d * 2^r produced by its while-loop has r ≥ 1 with d odd:
neither the sampling nor the decomposition can fail under the dispatcher's
preconditions. -/
theorem probabilistic_tier_preconditions (n : Int) (hs : is_small_prime n = true)
    (h1 : 100000000 ≤ n) (h2 : n < 10000000000000000) :
    2 ≤ n.toNat - 2 ∧
    1 ≤ (twoFactor (n.toNat - 1)).1 ∧
    (twoFactor (n.toNat - 1)).2 % 2 = 1 ∧
    (twoFactor (n.toNat - 1)).2 * 2 ^ (twoFactor (n.toNat - 1)).1 = n.toNat - 1 := by
  obtain ⟨-, hcase⟩ := is_small_prime_true_cases hs
  rcases hcase with hlt | ⟨-, hm2, -⟩
  · omega
  · have hm : n.toNat - 1 ≠ 0 := by omega
    have he : (n.toNat - 1) % 2 = 0 := by omega
    obtain ⟨hodd, hpow⟩ := twoFactor_spec hm
    exact ⟨by omega, twoFactor_fst_pos hm he, hodd, hpow⟩

/-- Witness for C10 at the concrete input 100000007 (probabilistic tier). -/
theorem probabilistic_tier_preconditions_witness :
    is_small_prime 100000007 = true ∧ (100000000 : Int) ≤ 100000007 ∧
    (100000007 : Int) < 10000000000000000 ∧
    2 ≤ (100000007 : Int).toNat - 2 ∧ 1 ≤ (twoFactor ((100000007 : Int).toNat - 1)).1 := by
  have h := probabilistic_tier_preconditions 100000007 (by decide) (by decide) (by decide)
  exact ⟨by decide, by decide, by decide, h.1, h.2.1⟩

theorem natCast_zmod_inj {n x y : Nat} (hn : 0 < n) (hx : x < n) (hy : y < n)
    (h : (x : ZMod n) = (y : ZMod n)) : x = y := by
  haveI : NeZero n := ⟨hn.ne'⟩
  rw [← ZMod.val_cast_of_lt hx, ← ZMod.val_cast_of_lt hy, h]

theorem natCast_sub_one {n : Nat} (hn : 1 ≤ n) : ((n - 1 : Nat) : ZMod n) = -1 := by
  rw [Nat.cast_sub hn, Nat.cast_one, ZMod.natCast_self, zero_sub]

theorem mrIter_lt (n : Nat) (hn : 0 < n) : ∀ j, 1 ≤ j → ∀ x, mrIter n x j < n := by
  intro j
  induction j with
  | zero => intro h; exact absurd h (by omega)
  | succ j ih =>
    intro _ x
    rcases Nat.eq_zero_or_pos j with hj | hj
    · subst hj
      exact Nat.mod_lt _ hn
    · exact ih hj (x * x % n)

theorem mrIter_cast (n : Nat) : ∀ j x, ((mrIter n x j : Nat) : ZMod n) = (x : ZMod n) ^ 2 ^ j := by
  intro j
  induction j with
  | zero => intro x; simp [mrIter]
  | succ j ih =>
    intro x
    have h1 : mrIter n x (j + 1) = mrIter n (x * x % n) j := rfl
    rw [h1, ih (x * x % n)]
    have h2 : ((x * x % n : Nat) : ZMod n) = (x : ZMod n) * x := by
      rw [ZMod.natCast_mod, Nat.cast_mul]
    have h3 : 2 * 2 ^ j = 2 ^ (j + 1) := (pow_succ' 2 j).symm
    rw [h2, ← pow_two, ← pow_mul, h3]

theorem mrSquare_true_of_iter (n : Nat) :
    ∀ fuel x j, 1 ≤ j → j ≤ fuel → mrIter n x j = n - 1 → mrSquare n x fuel = true := by
  intro fuel
  induction fuel with
  | zero => intro x j h1 h2 _; omega
  | succ f ih =>
    intro x j h1 h2 hit
    show (if x * x % n = n - 1 then true else mrSquare n (x * x % n) f) = true
    by_cases hx : x * x % n = n - 1
    · rw [if_pos hx]
    · rw [if_neg hx]
      rcases Nat.eq_or_lt_of_le h1 with hj | hj
      · exfalso
        rw [← hj] at hit
        exact hx hit
      · obtain ⟨k, rfl⟩ : ∃ k, j = k + 1 := ⟨j - 1, by omega⟩
        exact ih (x * x % n) k (by omega) (by omega) hit

theorem exists_mr_witness_index {n : Nat} (hp : Nat.Prime n) {α : ZMod n}
    (hα : α ≠ 0) {d r : Nat} (hpow : d * 2 ^ r = n - 1)
    (hne1 : α ^ d ≠ 1) (hnen1 : α ^ d ≠ -1) :
    ∃ j, 1 ≤ j ∧ j ≤ r - 1 ∧ α ^ (d * 2 ^ j) = -1 := by
  haveI : Fact n.Prime := ⟨hp⟩
  have hfer : α ^ (n - 1) = 1 := ZMod.pow_card_sub_one_eq_one hα
  have hex : ∃ j, α ^ (d * 2 ^ j) = 1 := ⟨r, by rw [hpow]; exact hfer⟩
  have hspec : α ^ (d * 2 ^ Nat.find hex) = 1 := Nat.find_spec hex
  have hj0r : Nat.find hex ≤ r := Nat.find_min' hex (by rw [hpow]; exact hfer)
  have hj0pos : 1 ≤ Nat.find hex := by
    by_contra h
    have h0 : Nat.find hex = 0 := by omega
    rw [h0, pow_zero, mul_one] at hspec
    exact hne1 hspec
  have hsq : α ^ (d * 2 ^ (Nat.find hex - 1)) * α ^ (d * 2 ^ (Nat.find hex - 1)) = 1 := by
    rw [← pow_add]
    have hexp : d * 2 ^ (Nat.find hex - 1) + d * 2 ^ (Nat.find hex - 1) =
        d * 2 ^ Nat.find hex := by
      have h1 : Nat.find hex - 1 + 1 = Nat.find hex := by omega
      calc d * 2 ^ (Nat.find hex - 1) + d * 2 ^ (Nat.find hex - 1)
          = d * (2 ^ (Nat.find hex - 1) * 2) := by ring
        _ = d * 2 ^ (Nat.find hex - 1 + 1) := by rw [pow_succ]
        _ = d * 2 ^ Nat.find hex := by rw [h1]
    rw [hexp]
    exact hspec
  have hβ := mul_self_eq_one_iff.mp hsq
  have hβne1 : α ^ (d * 2 ^ (Nat.find hex - 1)) ≠ 1 := Nat.find_min hex (by omega)
  have hβeq : α ^ (d * 2 ^ (Nat.find hex - 1)) = -1 := by tauto
  have hj1pos : 1 ≤ Nat.find hex - 1 := by
    by_contra h
    have h0 : Nat.find hex - 1 = 0 := by omega
    rw [h0, pow_zero, mul_one] at hβeq
    exact hnen1 hβeq
  exact ⟨Nat.find hex - 1, hj1pos, by omega, hβeq⟩

theorem mrRound_true_of_prime {n : Nat} (hp : Nat.Prime n) (h5 : 5 ≤ n)
    {a : Nat} (ha2 : 2 ≤ a) (han : a ≤ n - 2) :
    mrRound n (twoFactor (n - 1)).2 (twoFactor (n - 1)).1 a = true := by
  haveI : Fact n.Prime := ⟨hp⟩
  haveI : NeZero n := ⟨by omega⟩
  have hn0 : 0 < n := by omega
  have hm : n - 1 ≠ 0 := by omega
  obtain ⟨hdodd, hpow⟩ := twoFactor_spec hm
  unfold mrRound
  by_cases hif : a ^ (twoFactor (n - 1)).2 % n = 1 ∨ a ^ (twoFactor (n - 1)).2 % n = n - 1
  · rw [if_pos hif]
  · rw [if_neg hif]
    push_neg at hif
    obtain ⟨hne1, hnen1⟩ := hif
    have hα0 : (a : ZMod n) ≠ 0 := by
      intro h0
      have hdvd : n ∣ a := (ZMod.natCast_zmod_eq_zero_iff_dvd a n).mp h0
      have := Nat.le_of_dvd (by omega) hdvd
      omega
    have hcast : ∀ k : Nat, ((a ^ k % n : Nat) : ZMod n) = (a : ZMod n) ^ k := by
      intro k
      rw [ZMod.natCast_mod, Nat.cast_pow]
    have hlt : ∀ k : Nat, a ^ k % n < n := fun k => Nat.mod_lt _ hn0
    have hne1' : (a : ZMod n) ^ (twoFactor (n - 1)).2 ≠ 1 := by
      intro h1
      apply hne1
      apply natCast_zmod_inj hn0 (hlt _) (by omega)
      rw [hcast, h1, Nat.cast_one]
    have hnen1' : (a : ZMod n) ^ (twoFactor (n - 1)).2 ≠ -1 := by
      intro h1
      apply hnen1
      apply natCast_zmod_inj hn0 (hlt _) (by omega)
      rw [hcast, h1, natCast_sub_one (show 1 ≤ n by omega)]
    obtain ⟨j, hj1, hjr, hjeq⟩ := exists_mr_witness_index hp hα0 hpow hne1' hnen1'
    refine mrSquare_true_of_iter n ((twoFactor (n - 1)).1 - 1)
      (a ^ (twoFactor (n - 1)).2 % n) j hj1 hjr ?_
    apply natCast_zmod_inj hn0 (mrIter_lt n hn0 j hj1 _) (by omega)
    rw [mrIter_cast, hcast, ← pow_mul, natCast_sub_one (show 1 ≤ n by omega)]
    exact hjeq

/-- C5: zero false negatives for Miller-Rabin: for every prime n ≥ 5 and every
realized sequence of random witnesses drawn from [2, n-2], over any number of
rounds, miller_rabin_test returns true - it never declares a true prime
Composite, whatever the randomness produced. -/
theorem miller_rabin_no_false_negatives (n : Nat) (hp : Nat.Prime n) (h5 : 5 ≤ n)
    (as : List Nat) (has : ∀ a ∈ as, 2 ≤ a ∧ a ≤ n - 2) :
    miller_rabin_test n as = true := by
  unfold miller_rabin_test
  rw [List.all_eq_true]
  intro a ha
  obtain ⟨h2, hn2⟩ := has a ha
  exact mrRound_true_of_prime hp h5 h2 hn2

/-- Witness for C5 at n = 7 with the full witness range [2, 5] as the draws. -/
theorem miller_rabin_no_false_negatives_witness :
    Nat.Prime 7 ∧ 5 ≤ 7 ∧ (∀ a ∈ [2, 3, 4, 5], 2 ≤ a ∧ a ≤ 7 - 2) ∧
    miller_rabin_test 7 [2, 3, 4, 5] = true := by
  refine ⟨by norm_num, by decide, by decide, ?_⟩
  exact miller_rabin_no_false_negatives 7 (by norm_num) (by decide) [2, 3, 4, 5] (by decide)

theorem is_primeF_natCast_eval (pp : Nat → Bool) (thr : Nat → Nat)
    (g : Nat → List Nat × List Nat) (fuel : Nat) (c : Nat) (h : c < 100000000) :
    is_primeF pp thr g (fuel + 1) (c : Int) = some (decide (Nat.Prime c)) := by
  rw [is_primeF_eval_below_1e8 pp thr g fuel (c : Int) (by exact_mod_cast h)]
  congr 1
  rw [decide_eq_decide]
  have ht : ((c : Int)).toNat = c := Int.toNat_natCast c
  constructor
  · rintro ⟨-, hp⟩
    rwa [ht] at hp
  · intro hp
    exact ⟨Int.natCast_nonneg c, by rwa [ht]⟩

theorem scanAux_completes (isp : Nat → Option Bool) (n T R : Nat)
    (hRp : Nat.Prime R) (hRo : T < maxOrd n R)
    (hmin : ∀ c, 3 ≤ c → c < R → ¬(Nat.Prime c ∧ T < maxOrd n c))
    (hisp : ∀ c, 3 ≤ c → c ≤ R → isp c = some (decide (Nat.Prime c))) :
    ∀ steps cand, 3 ≤ cand → cand ≤ R → R < cand + steps →
      scanAux isp n T steps cand = some R := by
  intro steps
  induction steps with
  | zero => intro cand h3 hle hlt; omega
  | succ s ih =>
    intro cand h3 hle hlt
    simp only [scanAux, hisp cand h3 hle]
    by_cases hPc : Nat.Prime cand
    · rw [decide_eq_true hPc]
      rcases Nat.eq_or_lt_of_le hle with he | hlt2
      · subst he
        simp only [if_pos hRo]
      · have hno : ¬ T < maxOrd n cand := fun ho => hmin cand h3 hlt2 ⟨hPc, ho⟩
        simp only [if_neg hno]
        exact ih (cand + 1) (by omega) (by omega) (by omega)
    · rw [decide_eq_false hPc]
      have hcl : cand < R := by
        rcases Nat.eq_or_lt_of_le hle with he | h2
        · exact absurd (he ▸ hRp) hPc
        · exact h2
      exact ih (cand + 1) (by omega) (by omega) (by omega)

theorem scanAux_sound (isp : Nat → Option Bool) (n T R : Nat)
    (hRp : Nat.Prime R) (hRo : T < maxOrd n R)
    (hmin : ∀ c, 3 ≤ c → c < R → ¬(Nat.Prime c ∧ T < maxOrd n c))
    (hisp : ∀ c, 3 ≤ c → c ≤ R → isp c = some (decide (Nat.Prime c))) :
    ∀ steps cand r, 3 ≤ cand → cand ≤ R →
      scanAux isp n T steps cand = some r → r = R := by
  intro steps
  induction steps with
  | zero => intro cand r h3 hle h; simp [scanAux] at h
  | succ s ih =>
    intro cand r h3 hle h
    simp only [scanAux, hisp cand h3 hle] at h
    by_cases hPc : Nat.Prime cand
    · rw [decide_eq_true hPc] at h
      rcases Nat.eq_or_lt_of_le hle with he | hlt2
      · subst he
        simp only [if_pos hRo] at h
        exact (Option.some_inj.mp h).symm
      · have hno : ¬ T < maxOrd n cand := fun ho => hmin cand h3 hlt2 ⟨hPc, ho⟩
        simp only [if_neg hno] at h
        exact ih (cand + 1) r (by omega) (by omega) h
    · rw [decide_eq_false hPc] at h
      have hcl : cand < R := by
        rcases Nat.eq_or_lt_of_le hle with he | h2
        · exact absurd (he ▸ hRp) hPc
        · exact h2
      exact ih (cand + 1) r (by omega) (by omega) h

/-- C9: termination and postcondition of the order search.  Given any prime r0
at least 3 in the deterministic range (r0 < 10^8, which covers every threshold
the float expression log2(n)^2 can reach before the perfect-power step would
overflow) whose computed order exceeds the threshold T, the scan terminates
with some fuel; the r it retains is prime and its computed order exceeds T;
and the loop can only ever exit at that same r (for any fuel), since the scan
takes the first prime whose order beats the threshold. -/
theorem aks_order_search_terminates (pp : Nat → Bool) (thr : Nat → Nat)
    (g : Nat → List Nat × List Nat) (n T r0 : Nat) (hr0p : Nat.Prime r0)
    (hr03 : 3 ≤ r0) (hr08 : r0 < 100000000) (hr0T : T < maxOrd n r0) :
    ∃ fuel r, scanAux (fun c => is_primeF pp thr g fuel (c : Int)) n T fuel 3 = some r ∧
      Nat.Prime r ∧ T < maxOrd n r ∧
      ∀ fuel2 r2, scanAux (fun c => is_primeF pp thr g fuel2 (c : Int)) n T fuel2 3 = some r2 →
        r2 = r := by
  have hex : ∃ c, 3 ≤ c ∧ Nat.Prime c ∧ T < maxOrd n c := ⟨r0, hr03, hr0p, hr0T⟩
  obtain ⟨hR3, hRp, hRo⟩ := Nat.find_spec hex
  have hRle : Nat.find hex ≤ r0 := Nat.find_min' hex ⟨hr03, hr0p, hr0T⟩
  have hmin : ∀ c, 3 ≤ c → c < Nat.find hex → ¬(Nat.Prime c ∧ T < maxOrd n c) := by
    intro c h3 hc hcontra
    exact Nat.find_min hex hc ⟨h3, hcontra.1, hcontra.2⟩
  have hisp : ∀ fuel : Nat, ∀ c, 3 ≤ c → c ≤ Nat.find hex →
      is_primeF pp thr g (fuel + 1) (c : Int) = some (decide (Nat.Prime c)) := by
    intro fuel c h3 hcR
    exact is_primeF_natCast_eval pp thr g fuel c (by omega)
  refine ⟨Nat.find hex + 1, Nat.find hex, ?_, hRp, hRo, ?_⟩
  · exact scanAux_completes _ n T (Nat.find hex) hRp hRo hmin (hisp (Nat.find hex))
      (Nat.find hex + 1) 3 (by omega) hR3 (by omega)
  · intro fuel2 r2 h2
    cases fuel2 with
    | zero => simp [scanAux] at h2
    | succ f2 =>
      exact scanAux_sound _ n T (Nat.find hex) hRp hRo hmin (hisp f2) (f2 + 1) 3 r2
        (by omega) hR3 h2

/-- Witness for C9 at n = 97 with threshold 5: the prime 7 beats the
threshold (its computed order is 6), so the scan terminates and retains a
prime of order above 5. -/
theorem aks_order_search_terminates_witness :
    Nat.Prime 7 ∧ (3 : Nat) ≤ 7 ∧ (7 : Nat) < 100000000 ∧ 5 < maxOrd 97 7 ∧
    (∃ fuel r, scanAux (fun c => is_primeF ppNone (thrConst 5) noDraws fuel (c : Int))
        97 5 fuel 3 = some r ∧ Nat.Prime r ∧ 5 < maxOrd 97 r ∧
      ∀ fuel2 r2, scanAux (fun c => is_primeF ppNone (thrConst 5) noDraws fuel2 (c : Int))
          97 5 fuel2 3 = some r2 → r2 = r) := by
  refine ⟨by norm_num, by decide, by decide, by decide, ?_⟩
  exact aks_order_search_terminates ppNone (thrConst 5) noDraws 97 5 7 (by norm_num)
    (by decide) (by decide) (by decide)

/-- C3 (refuted - code bug): aks_test cannot run to completion on any
candidate that reaches its residue check.  The source computes
range(1, math.isqrt(r) * math.log2(n)); the bound is a Python float, so range
raises TypeError the moment that line executes.  In the model: whenever the
dispatcher hands n (n ≥ 10^16, past the small filter) to aks_test and the body
reaches the residue loop - the perfect-power step did not fire, the order
search returned r, the gcd screen found no factor and r < n - the call returns
the exception value none instead of a boolean verdict. -/
theorem aks_residue_check_raises (pp : Nat → Bool) (thr : Nat → Nat)
    (g : Nat → List Nat × List Nat) (fuel : Nat) (n : Int) (r : Nat)
    (hs : is_small_prime n = true) (h16 : 10000000000000000 ≤ n)
    (hpp : pp n.toNat = false)
    (hscan : scanAux (fun c => is_primeF pp thr g fuel (c : Int)) n.toNat (thr n.toNat) fuel 3
      = some r)
    (hgcd : (List.range' 2 (min r n.toNat - 2)).any
      (fun a => decide (1 < Nat.gcd a n.toNat)) = false)
    (hrn : r < n.toNat) :
    is_primeF pp thr g (fuel + 1) n = none := by
  rw [is_primeF_aks pp thr g fuel n hs h16]
  unfold aks_testF aksBody
  have hs2 : is_small_prime ((n.toNat : Nat) : Int) = true := by
    rw [Int.toNat_of_nonneg (show 0 ≤ n by omega)]
    exact hs
  have hnr : ¬ n.toNat ≤ r := by omega
  have hmax : n ⊔ 0 = n := by omega
  simp [hs2, hpp, hscan, hgcd, hnr, hmax, hs]

/-- Witness for C3: the prime candidate 10^16 + 61 is dispatched to aks_test
(it exceeds 10^16 and passes the small filter); with a threshold instance of 5
the order search retains r = 11, the gcd screen finds no factor, 11 < n, so
the run ends at the residue check and returns none - the modelled TypeError -
rather than a verdict. -/
theorem aks_residue_check_raises_witness :
    is_small_prime 10000000000000061 = true ∧
    (10000000000000000 : Int) ≤ 10000000000000061 ∧
    is_primeF ppNone (thrConst 5) noDraws 21 10000000000000061 = none := by
  refine ⟨by decide, by decide, ?_⟩
  exact aks_residue_check_raises ppNone (thrConst 5) noDraws 20 10000000000000061 11
    (by decide) (by decide) (by decide) (by decide) (by decide) (by decide)

/-- C4 (refuted - code bug): the batch entry point applied to 17 evaluates to
false, not true: parallel_is_prime(17) tests every integer in [2, 17) and
aggregates the verdicts with all(), and the range contains composites (4, 6,
8, 9, ...), so the aggregate is false - contradicting the source's own output
comment and the claimed value.  The worker count plays no role in the value. -/
theorem parallel_is_prime_17_false :
    parallel_is_prime ppNone (thrConst 0) noDraws 1 17 = some false := by decide
